import Mathlib

set_option maxRecDepth 100000

/-!
Verification of the SpacetimeDB commitlog frame codec and stream helpers.

The definitions below are a shallow embedding of:
- `crates/commitlog/src/commit.rs` (`Header`, `Commit`, `Header::decode`,
  `Commit::write`, `Commit::decode`, `Commit::into_transactions`), and
- `crates/commitlog/src/stream/common.rs` (`RangeFromMaybeToInclusive`,
  `read_exact`).

Machine integers are modelled as `Nat` with explicit `% 2 ^ w` where the Rust
code can overflow or truncate; byte streams are `List Nat` with every element
`< 256`.  A `Read`er over such a list has no transport errors, so the only
I/O failure mode is `UnexpectedEof`, which the embedding encodes structurally
(see `Header.decode` and `Commit.decode` below).
-/

namespace Commitlog

/-- Little-endian interpretation of a byte list as a natural number
(`u64::from_le_bytes` et al., as exposed by `BufReader::get_u64/get_u16/get_u32`). -/
def leToNat : List Nat → Nat
  | [] => 0
  | b :: bs => b + 256 * leToNat bs

/-- The `w`-byte little-endian encoding of `x` (`to_le_bytes`). -/
def natToLe : Nat → Nat → List Nat
  | 0, _ => []
  | w + 1, x => x % 256 :: natToLe w (x / 256)

/-- The CRC-32C (Castagnoli) polynomial in reflected form, as used by the
`crc32c` crate the commitlog links against. -/
def CRC32C_POLY : Nat := 0x82F63B78

/-- One bit-step of the reflected CRC-32C computation. -/
def crcStep (crc : Nat) : Nat :=
  if crc % 2 = 1 then Nat.xor (crc / 2) CRC32C_POLY else crc / 2

/-- Fold one input byte into the CRC state (8 bit-steps). -/
def crcByte (crc b : Nat) : Nat :=
  crcStep (crcStep (crcStep (crcStep (crcStep (crcStep (crcStep (crcStep (Nat.xor crc b))))))))

/-- CRC-32C of a byte sequence: init `0xFFFFFFFF`, final xor `0xFFFFFFFF`.
This is the checksum accumulated by `Crc32cWriter`/`Crc32cReader`.
(Sanity: `crc32c "123456789" = 0xE3069283`, the standard check value.) -/
def crc32c (bs : List Nat) : Nat :=
  Nat.xor (bs.foldl crcByte 0xFFFFFFFF) 0xFFFFFFFF

/-- The in-memory commit header (`commit.rs`, `struct Header`). -/
structure Header where
  min_tx_offset : Nat
  n : Nat
  len : Nat
deriving DecidableEq, Repr

/-- Rust `Header::LEN = 8 + 2 + 4 = 14`. -/
def Header.LEN : Nat := 8 + 2 + 4

/-- The all-zeroes test performed by the slice pattern
`[0, 0, 0, 0, 0, 0, 0, 0, 0, 0, 0, 0, 0, 0]` in `Header::decode`. -/
def allZero (bs : List Nat) : Bool := bs.all (fun b => b == 0)

/-- Model of `Header::decode` over a byte-list reader.

The Rust function returns `Ok(None)` when `read_exact` fails with
`UnexpectedEof` — which for a list reader happens exactly when fewer than
`Header::LEN` bytes remain — and also when all 14 header bytes are zero.
Otherwise it parses the three little-endian fields.  Transport errors do not
arise for a pure byte-list reader, so the result type is `Option Header`. -/
def Header.decode (s : List Nat) : Option Header :=
  if s.length < Header.LEN then none
  else if allZero (s.take Header.LEN) then none
  else some { min_tx_offset := leToNat (s.take 8)
            , n := leToNat ((s.drop 8).take 2)
            , len := leToNat ((s.drop 10).take 4) }

/-- The commit entry (`commit.rs`, `struct Commit`). -/
structure Commit where
  min_tx_offset : Nat
  n : Nat
  records : List Nat
deriving DecidableEq, Repr

/-- Rust `Commit::FRAMING_LEN = Header::LEN + 4`. -/
def Commit.FRAMING_LEN : Nat := Header.LEN + 4

/-- Rust `Commit::encoded_len`. -/
def Commit.encoded_len (c : Commit) : Nat := Commit.FRAMING_LEN + c.records.length

/-- Rust `Commit::tx_range`, as the pair (start, end) of the half-open range
`min_tx_offset..min_tx_offset + n` (u64 arithmetic). -/
def Commit.tx_range (c : Commit) : Nat × Nat :=
  (c.min_tx_offset, (c.min_tx_offset + c.n) % 2 ^ 64)

/-- Model of `Commit::write`: the exact byte sequence written to the sink.

The header fields and the records go through a `Crc32cWriter`; the CRC of
exactly those bytes is then appended little-endian.  `records.len() as u32`
truncates the length to 32 bits. -/
def Commit.writeBytes (c : Commit) : List Nat :=
  let body := natToLe 8 c.min_tx_offset ++ natToLe 2 c.n
      ++ natToLe 4 (c.records.length % 2 ^ 32) ++ c.records
  body ++ natToLe 4 (crc32c body)

/-- Result of `Commit::decode` on a byte-list reader.

- `none` models `Ok(None)` (EOF or zero header at the frame boundary);
- `ok c` models `Ok(Some(c))`;
- `checksumMismatch` models `Err(e)` with `e.kind() = InvalidData` and the
  inner error downcastable to `ChecksumMismatch`;
- `truncated` models `Err(e)` with `e.kind() = UnexpectedEof`, produced by
  `read_exact` on the payload or by `decode_u32` on the trailing CRC when the
  list reader runs dry (the only I/O error a list reader can produce). -/
inductive DecodeResult where
  | none
  | ok (c : Commit)
  | checksumMismatch
  | truncated
deriving DecidableEq, Repr

/-- Model of `Commit::decode` over a byte-list reader, returning the result together
with the bytes left in the reader afterwards.

The CRC is accumulated over the bytes read through the `Crc32cReader`: the 14
header bytes and the `hdr.len` payload bytes.  The trailing CRC word is read
from the unwrapped reader and is not part of the accumulated checksum. -/
def Commit.decode (s : List Nat) : DecodeResult × List Nat :=
  match Header.decode s with
  | Option.none => (DecodeResult.none, s.drop Header.LEN)
  | Option.some h =>
    let rest := s.drop Header.LEN
    if rest.length < h.len then (DecodeResult.truncated, [])
    else
      let records := rest.take h.len
      let rest2 := rest.drop h.len
      if rest2.length < 4 then (DecodeResult.truncated, [])
      else
        let chk := crc32c (s.take Header.LEN ++ records)
        let crc := leToNat (rest2.take 4)
        if chk = crc then
          (DecodeResult.ok { min_tx_offset := h.min_tx_offset, n := h.n, records := records },
           rest2.drop 4)
        else (DecodeResult.checksumMismatch, rest2.drop 4)

/-- A transaction yielded by `Commit::into_transactions`. -/
structure Transaction (R : Type) where
  offset : Nat
  txdata : R
deriving DecidableEq, Repr

/-- A `Decoder` capability: `decode_record(version, offset, &mut cursor)`
modelled as a function from the cursor's remaining bytes to the result
together with the remaining bytes after the call (the cursor advances by
whatever the decoder consumed, on success and on error alike). -/
def DecoderFn (R E : Type) : Type := Nat → Nat → List Nat → Except E R × List Nat

/-- The `scan` loop inside `Commit::into_transactions`: one item per offset,
threading a single cursor through successive decoder calls. -/
def intoTxGo {R E : Type} (de : DecoderFn R E) (version : Nat) :
    List Nat → List Nat → List (Except E (Transaction R))
  | [], _ => []
  | offset :: offs, cur =>
    let step := de version offset cur
    (step.1.map fun txdata => { offset := offset, txdata := txdata }) :: intoTxGo de version offs step.2

/-- Model of `Commit::into_transactions`: iterate the offsets
`min_tx_offset..(min_tx_offset + n)` (u64 arithmetic, so the range is empty
if the end wraps below the start), sharing one cursor over `records`. -/
def Commit.into_transactions {R E : Type} (c : Commit) (version : Nat) (de : DecoderFn R E) :
    List (Except E (Transaction R)) :=
  intoTxGo de version
    (List.range' c.min_tx_offset ((c.min_tx_offset + c.n) % 2 ^ 64 - c.min_tx_offset))
    c.records

/-- The cursor contents after the first `k` decoder calls of
`Commit.into_transactions` starting from offset `start` on cursor `cur`. -/
def txCursorAfter {R E : Type} (de : DecoderFn R E) (version start : Nat) (cur : List Nat) :
    Nat → List Nat
  | 0 => cur
  | k + 1 => (de version (start + k) (txCursorAfter de version start cur k)).2

/-- One bound of a Rust `RangeBounds<u64>` argument. -/
inductive RBound where
  | unbounded
  | included (x : Nat)
  | excluded (x : Nat)
deriving DecidableEq, Repr

/-- Rust `stream::common::RangeFromMaybeToInclusive`: `start` inclusive, `end?`
(the Rust field `end`) inclusive or unbounded. -/
structure RangeFromMaybeToInclusive where
  start : Nat
  end? : Option Nat
deriving DecidableEq, Repr

/-- Model of `RangeFromMaybeToInclusive::from_range_bounds`.  Here `start + 1` is u64
addition (wrapping in the model); `end.saturating_sub(1)` is `Nat` subtraction,
which saturates at 0 exactly like the Rust code. -/
def RangeFromMaybeToInclusive.from_range_bounds (sb eb : RBound) : RangeFromMaybeToInclusive :=
  let start : Nat :=
    match sb with
    | RBound.unbounded => 0
    | RBound.included s => s
    | RBound.excluded s => (s + 1) % 2 ^ 64
  let e : Option Nat :=
    match eb with
    | RBound.unbounded => Option.none
    | RBound.included e => Option.some (max e start)
    | RBound.excluded e => Option.some (max (e - 1) start)
  { start := start, end? := e }

/-- Rust `RangeFromMaybeToInclusive::is_empty`. -/
def RangeFromMaybeToInclusive.is_empty (r : RangeFromMaybeToInclusive) : Bool :=
  match r.end? with
  | Option.none => false
  | Option.some e => decide (e ≤ r.start)

/-- Rust `RangeFromMaybeToInclusive::contains`. -/
def RangeFromMaybeToInclusive.contains (r : RangeFromMaybeToInclusive) (item : Nat) : Bool :=
  decide (r.start ≤ item) &&
    (match r.end? with
     | Option.none => true
     | Option.some e => decide (item ≤ e))

/-- Rust `stream::common::DidReadExact`. -/
inductive DidReadExact where
  | all
  | eof
deriving DecidableEq, Repr

/-- Model of `stream::common::read_exact` over a byte-list source: tokio's
`AsyncReadExt::read_exact` fails with `UnexpectedEof` whenever the source is
exhausted before the buffer is full, and the helper maps that error — and only
that error — to `Ok(DidReadExact::Eof)`.  A list source produces no other
errors, so the result is a plain `DidReadExact`. -/
def read_exact (src : List Nat) (bufLen : Nat) : DidReadExact :=
  if bufLen ≤ src.length then DidReadExact.all else DidReadExact.eof

/-- Flip bit `j` of the byte at index `i` (used to state the bit-flip claims). -/
def flipByte (l : List Nat) (i j : Nat) : List Nat :=
  l.set i (Nat.xor (l.getD i 0) (2 ^ j))

/-- Well-formedness of a commit as a value of the Rust type:
field bounds of `u64`/`u16` and byte-valued records. -/
def Commit.wf (c : Commit) : Prop :=
  c.min_tx_offset < 2 ^ 64 ∧ c.n < 2 ^ 16 ∧ ∀ b ∈ c.records, b < 256

/-- A valid commit per the spec: well-formed, at least one record
(`n ≥ 1`), and a payload length representable as `u32`. -/
def Commit.valid (c : Commit) : Prop :=
  c.wf ∧ 1 ≤ c.n ∧ c.records.length < 2 ^ 32

/-! ### Little-endian codec lemmas -/

@[simp] theorem length_natToLe (w x : Nat) : (natToLe w x).length = w := by
  induction w generalizing x with
  | zero => rfl
  | succ w ih => simp [natToLe, ih]

theorem mem_natToLe_lt {w x b : Nat} (h : b ∈ natToLe w x) : b < 256 := by
  induction w generalizing x with
  | zero => simp [natToLe] at h
  | succ w ih =>
    simp only [natToLe, List.mem_cons] at h
    rcases h with h | h
    · omega
    · exact ih h

theorem leToNat_natToLe {w x : Nat} (h : x < 256 ^ w) : leToNat (natToLe w x) = x := by
  induction w generalizing x with
  | zero =>
    simp only [natToLe, leToNat]
    simp only [pow_zero] at h
    omega
  | succ w ih =>
    have hd : x / 256 < 256 ^ w := by
      rw [Nat.div_lt_iff_lt_mul (by norm_num)]
      calc x < 256 ^ (w + 1) := h
        _ = 256 ^ w * 256 := by ring
    simp only [natToLe, leToNat, ih hd]
    omega

theorem leToNat_lt {bs : List Nat} (h : ∀ b ∈ bs, b < 256) :
    leToNat bs < 256 ^ bs.length := by
  induction bs with
  | nil => simp [leToNat]
  | cons b bs ih =>
    have hb : b < 256 := h b (by simp)
    have ht : leToNat bs < 256 ^ bs.length := ih (fun x hx => h x (by simp [hx]))
    simp only [leToNat, List.length_cons, pow_succ]
    set k := 256 ^ bs.length
    omega

theorem leToNat_inj : ∀ {as bs : List Nat}, as.length = bs.length →
    (∀ b ∈ as, b < 256) → (∀ b ∈ bs, b < 256) → leToNat as = leToNat bs → as = bs := by
  intro as
  induction as with
  | nil =>
    intro bs hlen _ _ _
    exact (List.length_eq_zero.mp hlen.symm).symm
  | cons a as ih =>
    intro bs hlen ha hb heq
    cases bs with
    | nil => simp at hlen
    | cons b bs =>
      have ha0 : a < 256 := ha a (by simp)
      have hb0 : b < 256 := hb b (by simp)
      simp only [leToNat] at heq
      have hhead : a = b ∧ leToNat as = leToNat bs := by
        constructor
        · omega
        · omega
      rcases hhead with ⟨h1, h2⟩
      subst h1
      have := ih (by simpa using hlen) (fun x hx => ha x (by simp [hx]))
        (fun x hx => hb x (by simp [hx])) h2
      rw [this]

theorem leToNat_ne_of_ne {as bs : List Nat} (hlen : as.length = bs.length)
    (ha : ∀ b ∈ as, b < 256) (hb : ∀ b ∈ bs, b < 256) (hne : as ≠ bs) :
    leToNat as ≠ leToNat bs :=
  fun h => hne (leToNat_inj hlen ha hb h)

/-! ### CRC-32C bound -/

theorem crcStep_lt {c : Nat} (h : c < 2 ^ 32) : crcStep c < 2 ^ 32 := by
  unfold crcStep
  split
  · exact Nat.xor_lt_two_pow (by omega) (by norm_num [CRC32C_POLY])
  · omega

theorem crcByte_lt {c b : Nat} (hc : c < 2 ^ 32) (hb : b < 256) :
    crcByte c b < 2 ^ 32 := by
  unfold crcByte
  have h0 : Nat.xor c b < 2 ^ 32 := Nat.xor_lt_two_pow hc (by omega)
  exact crcStep_lt (crcStep_lt (crcStep_lt (crcStep_lt (crcStep_lt (crcStep_lt
    (crcStep_lt (crcStep_lt h0)))))))

theorem foldl_crcByte_lt {bs : List Nat} {init : Nat} (h0 : init < 2 ^ 32)
    (hb : ∀ b ∈ bs, b < 256) : bs.foldl crcByte init < 2 ^ 32 := by
  induction bs generalizing init with
  | nil => simpa using h0
  | cons b bs ih =>
    simp only [List.foldl_cons]
    exact ih (crcByte_lt h0 (hb b (by simp))) (fun x hx => hb x (by simp [hx]))

theorem crc32c_lt {bs : List Nat} (hb : ∀ b ∈ bs, b < 256) : crc32c bs < 2 ^ 32 := by
  unfold crc32c
  exact Nat.xor_lt_two_pow (foldl_crcByte_lt (by norm_num) hb) (by norm_num)

/-! ### Frame structure lemmas -/

/-- The 14 header bytes of an encoded commit, as laid down by `Commit::write`. -/
def hdrBytes (c : Commit) : List Nat :=
  natToLe 8 c.min_tx_offset ++ natToLe 2 c.n ++ natToLe 4 (c.records.length % 2 ^ 32)

@[simp] theorem hdrBytes_length (c : Commit) : (hdrBytes c).length = 14 := by
  simp [hdrBytes]

theorem hdrBytes_bytes_lt (c : Commit) : ∀ b ∈ hdrBytes c, b < 256 := by
  intro b hb
  simp only [hdrBytes, List.mem_append] at hb
  rcases hb with (hb | hb) | hb <;> exact mem_natToLe_lt hb

theorem writeBytes_eq (c : Commit) :
    c.writeBytes = (hdrBytes c ++ c.records) ++ natToLe 4 (crc32c (hdrBytes c ++ c.records)) := by
  simp [Commit.writeBytes, hdrBytes, List.append_assoc]

theorem writeBytes_length (c : Commit) :
    c.writeBytes.length = 14 + c.records.length + 4 := by
  simp [writeBytes_eq]
  omega

theorem hdrBytes_not_allZero (c : Commit) (hn16 : c.n < 2 ^ 16) (hn : 1 ≤ c.n) :
    allZero (hdrBytes c) = false := by
  have hmem1 : c.n % 256 ∈ hdrBytes c := by
    simp [hdrBytes, natToLe]
  have hmem2 : c.n / 256 % 256 ∈ hdrBytes c := by
    simp [hdrBytes, natToLe]
  by_contra h
  have hz : allZero (hdrBytes c) = true := by
    cases hab : allZero (hdrBytes c)
    · exact absurd hab h
    · rfl
  have hall := List.all_eq_true.mp hz
  have h1 : c.n % 256 = 0 := by simpa using hall _ hmem1
  have h2 : c.n / 256 % 256 = 0 := by simpa using hall _ hmem2
  omega

theorem header_decode_hdrBytes_append (c : Commit) (t : List Nat)
    (ho : c.min_tx_offset < 2 ^ 64) (hn16 : c.n < 2 ^ 16) (hn : 1 ≤ c.n) :
    Header.decode (hdrBytes c ++ t)
      = some ⟨c.min_tx_offset, c.n, c.records.length % 2 ^ 32⟩ := by
  have hlen : (hdrBytes c ++ t).length = 14 + t.length := by simp
  have htake14 : (hdrBytes c ++ t).take 14 = hdrBytes c :=
    List.take_left' (hdrBytes_length c)
  have htake8 : (hdrBytes c ++ t).take 8 = natToLe 8 c.min_tx_offset := by
    simp only [hdrBytes, List.append_assoc]
    exact List.take_left' (by simp)
  have hdrop8 : (hdrBytes c ++ t).drop 8
      = natToLe 2 c.n ++ (natToLe 4 (c.records.length % 2 ^ 32) ++ t) := by
    simp only [hdrBytes, List.append_assoc]
    exact List.drop_left' (by simp)
  have hdrop10 : (hdrBytes c ++ t).drop 10
      = natToLe 4 (c.records.length % 2 ^ 32) ++ t := by
    have : hdrBytes c ++ t
        = (natToLe 8 c.min_tx_offset ++ natToLe 2 c.n)
          ++ (natToLe 4 (c.records.length % 2 ^ 32) ++ t) := by
      simp [hdrBytes, List.append_assoc]
    rw [this]
    exact List.drop_left' (by simp)
  unfold Header.decode
  rw [if_neg (by simp [Header.LEN, hlen]), show Header.LEN = 14 from rfl, htake14,
    if_neg (by simp [hdrBytes_not_allZero c hn16 hn])]
  have e1 : leToNat ((hdrBytes c ++ t).take 8) = c.min_tx_offset := by
    rw [htake8, leToNat_natToLe (by norm_num; omega)]
  have e2 : leToNat (((hdrBytes c ++ t).drop 8).take 2) = c.n := by
    rw [hdrop8, List.take_left' (by simp), leToNat_natToLe (by norm_num; omega)]
  have e3 : leToNat (((hdrBytes c ++ t).drop 10).take 4) = c.records.length % 2 ^ 32 := by
    rw [hdrop10, List.take_left' (by simp), leToNat_natToLe (by norm_num; omega)]
  rw [e1, e2, e3]

theorem decode_writeBytes_append (c : Commit) (extra : List Nat) (hv : c.valid) :
    Commit.decode (c.writeBytes ++ extra) = (DecodeResult.ok c, extra) := by
  obtain ⟨⟨ho, hn16, hrb⟩, hn, hlen32⟩ := hv
  set crcb := natToLe 4 (crc32c (hdrBytes c ++ c.records)) with hcrcb
  have hs : c.writeBytes ++ extra = hdrBytes c ++ (c.records ++ (crcb ++ extra)) := by
    rw [writeBytes_eq]
    simp [List.append_assoc]
  have hhdr : Header.decode (c.writeBytes ++ extra)
      = some ⟨c.min_tx_offset, c.n, c.records.length % 2 ^ 32⟩ := by
    rw [hs]
    exact header_decode_hdrBytes_append c _ ho hn16 hn
  have hmod : c.records.length % 2 ^ 32 = c.records.length := Nat.mod_eq_of_lt hlen32
  have hdrop14 : (c.writeBytes ++ extra).drop 14 = c.records ++ (crcb ++ extra) := by
    rw [hs]
    exact List.drop_left' (hdrBytes_length c)
  have htake14 : (c.writeBytes ++ extra).take 14 = hdrBytes c := by
    rw [hs]
    exact List.take_left' (hdrBytes_length c)
  have hrestlen : (c.records ++ (crcb ++ extra)).length
      = c.records.length + (4 + extra.length) := by
    simp [hcrcb]
  have hrecs : (c.records ++ (crcb ++ extra)).take c.records.length = c.records :=
    List.take_left' rfl
  have hrest2 : (c.records ++ (crcb ++ extra)).drop c.records.length = crcb ++ extra :=
    List.drop_left' rfl
  have hbytes : ∀ b ∈ hdrBytes c ++ c.records, b < 256 := by
    intro b hb
    rcases List.mem_append.mp hb with hb | hb
    · exact hdrBytes_bytes_lt c b hb
    · exact hrb b hb
  have hcrcval : leToNat ((crcb ++ extra).take 4) = crc32c (hdrBytes c ++ c.records) := by
    rw [List.take_left' (by simp [hcrcb]), hcrcb,
      leToNat_natToLe (by norm_num; exact lt_of_lt_of_le (crc32c_lt hbytes) (by norm_num))]
  unfold Commit.decode
  rw [hhdr]
  simp only [show Header.LEN = 14 from rfl, hdrop14, hmod, hrestlen]
  rw [if_neg (by omega), hrecs, hrest2]
  rw [if_neg (by simp [hcrcb])]
  rw [htake14, hcrcval, if_pos rfl]
  have : (crcb ++ extra).drop 4 = extra := List.drop_left' (by simp [hcrcb])
  rw [this]

/-- Anatomy of a successful `Commit::decode`: the header was parsed, and the
commit's fields come from the header and the payload slice, with the payload
fully read (`records.length = hd.len`). -/
theorem decode_ok_shape {s : List Nat} {c' : Commit}
    (h : (Commit.decode s).1 = DecodeResult.ok c') :
    ∃ hd : Header, Header.decode s = some hd ∧
      c'.min_tx_offset = hd.min_tx_offset ∧ c'.n = hd.n ∧
      c'.records = (s.drop 14).take hd.len ∧ c'.records.length = hd.len := by
  unfold Commit.decode at h
  split at h
  · simp at h
  · rename_i hd hh
    dsimp only at h
    rw [show Header.LEN = 14 from rfl] at h
    split at h
    · simp at h
    · rename_i hlt
      split at h
      · simp at h
      · split at h
        · rename_i hcrc
          simp only [DecodeResult.ok.injEq] at h
          refine ⟨hd, hh, ?_, ?_, ?_, ?_⟩
          · rw [← h]
          · rw [← h]
          · rw [← h]
          · rw [← h]
            simp only [List.length_take]
            omega
        · simp at h

/-- When a header was parsed and the stream holds the full payload and
trailing CRC, `Commit::decode` is exactly the checksum comparison. -/
theorem decode_eq_of_header_some {s : List Nat} {hd : Header}
    (hh : Header.decode s = some hd) (hlen : 14 + hd.len + 4 ≤ s.length) :
    Commit.decode s =
      if crc32c (s.take 14 ++ (s.drop 14).take hd.len)
          = leToNat ((s.drop (14 + hd.len)).take 4)
      then (DecodeResult.ok ⟨hd.min_tx_offset, hd.n, (s.drop 14).take hd.len⟩,
            (s.drop (14 + hd.len)).drop 4)
      else (DecodeResult.checksumMismatch, (s.drop (14 + hd.len)).drop 4) := by
  have hdd : (s.drop 14).drop hd.len = s.drop (14 + hd.len) := by
    rw [List.drop_drop]
  unfold Commit.decode
  rw [hh]
  dsimp only
  rw [show Header.LEN = 14 from rfl]
  rw [if_neg (by simp only [List.length_drop]; omega)]
  rw [hdd]
  rw [if_neg (by simp only [List.length_drop]; omega)]

theorem allZero_replicate (k : Nat) : allZero (List.replicate k 0) = true := by
  simp [allZero, List.all_eq_true, List.mem_replicate]

theorem decode_zero_fill {m : Nat} (hm : 14 ≤ m) :
    Commit.decode (List.replicate m 0)
      = (DecodeResult.none, (List.replicate m 0).drop 14) := by
  have hh : Header.decode (List.replicate m 0) = none := by
    unfold Header.decode
    rw [show Header.LEN = 14 from rfl]
    rw [if_neg (by simp; omega)]
    rw [if_pos]
    rw [List.take_replicate]
    exact allZero_replicate _
  unfold Commit.decode
  rw [hh]
  rfl

instance (c : Commit) : Decidable c.wf := by
  unfold Commit.wf
  infer_instance

instance (c : Commit) : Decidable c.valid := by
  unfold Commit.valid
  infer_instance

/-- The fields of a successfully parsed header are the three little-endian
slices of the first 14 bytes. -/
theorem header_decode_some_fields {s : List Nat} {hd : Header}
    (h : Header.decode s = some hd) :
    hd.min_tx_offset = leToNat (s.take 8) ∧ hd.n = leToNat ((s.drop 8).take 2) ∧
      hd.len = leToNat ((s.drop 10).take 4) ∧ 14 ≤ s.length := by
  unfold Header.decode at h
  rw [show Header.LEN = 14 from rfl] at h
  split at h
  · simp at h
  · split at h
    · simp at h
    · rename_i h1 h2
      simp only [Option.some.injEq] at h
      rw [← h]
      exact ⟨rfl, rfl, rfl, by omega⟩

/-! ### Claim theorems -/

/-- C1: for every valid commit `C` (`n ≥ 1`, hence a nonzero header, and a
payload length representable as `u32`), decoding the bytes produced by
`Commit::write C` with `Commit::decode` yields `Some C`, consuming the whole
frame: round-trip identity of the frame codec. -/
theorem commit_roundtrip (c : Commit) (hv : c.valid) :
    Commit.decode c.writeBytes = (DecodeResult.ok c, []) := by
  have h := decode_writeBytes_append c [] hv
  simpa using h

/-- Witness for `commit_roundtrip` at the spec's S1 scenario
`C = {min_tx_offset: 0, n: 3, records: [0; 128]}`. -/
theorem commit_roundtrip_witness :
    (Commit.mk 0 3 (List.replicate 128 0)).valid ∧
      (Commit.mk 0 3 (List.replicate 128 0)).encoded_len = 146 ∧
      Commit.decode (Commit.mk 0 3 (List.replicate 128 0)).writeBytes
        = (DecodeResult.ok (Commit.mk 0 3 (List.replicate 128 0)), []) :=
  ⟨by decide, by decide, commit_roundtrip _ (by decide)⟩

/-- C3: on a stream offering a parseable header, the full payload and a
4-byte trailing CRC, `Commit::decode` fails if and only if the CRC-32C of the
header and payload bytes differs from the trailing CRC word — the failure
being the invalid-data `ChecksumMismatch` error — and otherwise returns the
fully populated commit. -/
theorem decode_checksum_gate {s : List Nat} {hd : Header}
    (hh : Header.decode s = some hd) (hlen : 14 + hd.len + 4 ≤ s.length) :
    ((Commit.decode s).1 = DecodeResult.checksumMismatch
        ↔ crc32c (s.take 14 ++ (s.drop 14).take hd.len)
            ≠ leToNat ((s.drop (14 + hd.len)).take 4)) ∧
      (crc32c (s.take 14 ++ (s.drop 14).take hd.len)
          = leToNat ((s.drop (14 + hd.len)).take 4)
        → (Commit.decode s).1
            = DecodeResult.ok ⟨hd.min_tx_offset, hd.n, (s.drop 14).take hd.len⟩) := by
  rw [decode_eq_of_header_some hh hlen]
  by_cases hc : crc32c (s.take 14 ++ (s.drop 14).take hd.len)
      = leToNat ((s.drop (14 + hd.len)).take 4)
  · rw [if_pos hc]
    exact ⟨by simp [hc], fun _ => rfl⟩
  · rw [if_neg hc]
    exact ⟨by simp [hc], fun h => absurd h hc⟩

/-- Witness for `decode_checksum_gate` on the encoding of
`{min_tx_offset: 0, n: 1, records: [7]}`. -/
theorem decode_checksum_gate_witness :
    Header.decode (Commit.mk 0 1 [7]).writeBytes = some ⟨0, 1, 1⟩ ∧
      14 + 1 + 4 ≤ (Commit.mk 0 1 [7]).writeBytes.length ∧
      (((Commit.decode (Commit.mk 0 1 [7]).writeBytes).1 = DecodeResult.checksumMismatch
          ↔ crc32c ((Commit.mk 0 1 [7]).writeBytes.take 14
                ++ ((Commit.mk 0 1 [7]).writeBytes.drop 14).take 1)
              ≠ leToNat (((Commit.mk 0 1 [7]).writeBytes.drop (14 + 1)).take 4)) ∧
        (crc32c ((Commit.mk 0 1 [7]).writeBytes.take 14
              ++ ((Commit.mk 0 1 [7]).writeBytes.drop 14).take 1)
            = leToNat (((Commit.mk 0 1 [7]).writeBytes.drop (14 + 1)).take 4)
          → (Commit.decode (Commit.mk 0 1 [7]).writeBytes).1
              = DecodeResult.ok ⟨0, 1, ((Commit.mk 0 1 [7]).writeBytes.drop 14).take 1⟩)) :=
  ⟨by decide, by decide,
    @decode_checksum_gate (Commit.mk 0 1 [7]).writeBytes ⟨0, 1, 1⟩ (by decide) (by decide)⟩

/-- C4 (amended): `Header::decode` returns `None` exactly when the reader
cannot provide 14 bytes — be it zero bytes (clean EOF) or a short 1..13-byte
read, both folded into the `UnexpectedEof` case — or when all 14 header bytes
are zero.  A short read is *not* surfaced as a distinct truncation error. -/
theorem header_decode_none_iff (s : List Nat) :
    Header.decode s = none ↔ s.length < 14 ∨ allZero (s.take 14) = true := by
  unfold Header.decode
  rw [show Header.LEN = 14 from rfl]
  by_cases h1 : s.length < 14
  · simp [h1]
  · rw [if_neg h1]
    by_cases h2 : allZero (s.take 14) = true
    · simp [h1, h2]
    · simp [h1, h2]

/-- Counterexample to C4 as stated: a single byte read before EOF (a short,
truncated header) makes `Header::decode` return `None`, not an error distinct
from clean EOF. -/
theorem header_decode_short_read_counterexample :
    Header.decode [1] = none ∧ ([1] : List Nat).length = 1 := by decide

/-- C5: streaming `Commit::decode` over `write C1 ++ write C2 ++ zero_fill`
(with at least 14 zero bytes) yields `Some C1`, then `Some C2`, then `None`;
in particular decoding a buffer of 14 or more zero bytes returns `None`. -/
theorem decode_stream_concat (c1 c2 : Commit) (m : Nat)
    (h1 : c1.valid) (h2 : c2.valid) (hm : 14 ≤ m) :
    Commit.decode (c1.writeBytes ++ (c2.writeBytes ++ List.replicate m 0))
        = (DecodeResult.ok c1, c2.writeBytes ++ List.replicate m 0) ∧
      Commit.decode (c2.writeBytes ++ List.replicate m 0)
        = (DecodeResult.ok c2, List.replicate m 0) ∧
      (Commit.decode (List.replicate m 0)).1 = DecodeResult.none :=
  ⟨decode_writeBytes_append c1 _ h1, decode_writeBytes_append c2 _ h2, by
    rw [decode_zero_fill hm]⟩

/-- Witness for `decode_stream_concat` at the spec's S4 scenario:
`C1 = {0, 2, [0xaa; 10]}`, `C2 = {2, 1, [0xbb; 4]}`, 64 zero bytes. -/
theorem decode_stream_concat_witness :
    (Commit.mk 0 2 (List.replicate 10 0xaa)).valid ∧
      (Commit.mk 2 1 (List.replicate 4 0xbb)).valid ∧ 14 ≤ 64 ∧
      (Commit.decode ((Commit.mk 0 2 (List.replicate 10 0xaa)).writeBytes
            ++ ((Commit.mk 2 1 (List.replicate 4 0xbb)).writeBytes ++ List.replicate 64 0))
          = (DecodeResult.ok (Commit.mk 0 2 (List.replicate 10 0xaa)),
             (Commit.mk 2 1 (List.replicate 4 0xbb)).writeBytes ++ List.replicate 64 0) ∧
        Commit.decode ((Commit.mk 2 1 (List.replicate 4 0xbb)).writeBytes
              ++ List.replicate 64 0)
          = (DecodeResult.ok (Commit.mk 2 1 (List.replicate 4 0xbb)), List.replicate 64 0) ∧
        (Commit.decode (List.replicate 64 0)).1 = DecodeResult.none) :=
  ⟨by decide, by decide, by decide,
    decode_stream_concat _ _ 64 (by decide) (by decide) (by decide)⟩

/-- C9 (amended): `read_exact` returns `All` exactly when the source can fill
the whole buffer, and `Eof` exactly when the source hits end-of-stream before
the buffer is full — whether zero bytes or a nonzero short count were
available.  Only non-EOF transport errors propagate as errors; a short read is
folded into `Eof`, not surfaced as an error. -/
theorem read_exact_all_eof_iff (src : List Nat) (bufLen : Nat) :
    (read_exact src bufLen = DidReadExact.all ↔ bufLen ≤ src.length) ∧
      (read_exact src bufLen = DidReadExact.eof ↔ src.length < bufLen) := by
  unfold read_exact
  by_cases h : bufLen ≤ src.length
  · rw [if_pos h]
    refine ⟨by simp [h], ?_⟩
    constructor
    · intro hc
      cases hc
    · omega
  · rw [if_neg h]
    refine ⟨?_, by simp; omega⟩
    constructor
    · intro hc
      cases hc
    · omega

/-- Counterexample to C9 as stated: a source holding one byte cannot fill a
2-byte buffer; `read_exact` reports `Eof` even though the source yielded a
nonzero number of bytes before EOF, instead of surfacing an error. -/
theorem read_exact_short_read_counterexample :
    read_exact [1] 2 = DidReadExact.eof ∧ ([1] : List Nat).length = 1 := by decide

/-- Ranges produced by `from_range_bounds` never place a present `end` below
`start`: both end-bound arms take a `max` with `start`. -/
theorem from_range_bounds_start_le_end {sb eb : RBound} {y : Nat}
    (hy : (RangeFromMaybeToInclusive.from_range_bounds sb eb).end? = some y) :
    (RangeFromMaybeToInclusive.from_range_bounds sb eb).start ≤ y := by
  cases eb with
  | unbounded =>
    simp [RangeFromMaybeToInclusive.from_range_bounds] at hy
  | included e =>
    simp only [RangeFromMaybeToInclusive.from_range_bounds, Option.some.injEq] at hy
    rw [← hy]
    exact Nat.le_max_right _ _
  | excluded e =>
    simp only [RangeFromMaybeToInclusive.from_range_bounds, Option.some.injEq] at hy
    rw [← hy]
    exact Nat.le_max_right _ _

/-- C6 (amended): for every range `r` produced by `from_range_bounds`,
`is_empty r` does *not* mean no value is contained — `r.start` always still
satisfies `contains` — but it does mean `r.start` is the only value
possibly contained: `contains r x ↔ x = r.start`. -/
theorem is_empty_only_start (sb eb : RBound)
    (h : (RangeFromMaybeToInclusive.from_range_bounds sb eb).is_empty = true)
    (x : Nat) :
    (RangeFromMaybeToInclusive.from_range_bounds sb eb).contains x = true
      ↔ x = (RangeFromMaybeToInclusive.from_range_bounds sb eb).start := by
  cases he : (RangeFromMaybeToInclusive.from_range_bounds sb eb).end? with
  | none =>
    unfold RangeFromMaybeToInclusive.is_empty at h
    rw [he] at h
    simp at h
  | some e =>
    have hge := from_range_bounds_start_le_end he
    unfold RangeFromMaybeToInclusive.is_empty at h
    rw [he] at h
    simp at h
    unfold RangeFromMaybeToInclusive.contains
    rw [he]
    simp
    omega

/-- Witness for `is_empty_only_start` at `from_range_bounds(5..=3)`. -/
theorem is_empty_only_start_witness :
    (RangeFromMaybeToInclusive.from_range_bounds
        (RBound.included 5) (RBound.included 3)).is_empty = true ∧
      ((RangeFromMaybeToInclusive.from_range_bounds
          (RBound.included 5) (RBound.included 3)).contains 5 = true
        ↔ 5 = (RangeFromMaybeToInclusive.from_range_bounds
            (RBound.included 5) (RBound.included 3)).start) :=
  ⟨by decide, is_empty_only_start _ _ (by decide) 5⟩

/-- Counterexample to C6 as stated: `from_range_bounds(5..=3)` normalizes to
`{start := 5, end := some 5}`, which `is_empty` declares empty while
`contains` still accepts `x = 5` — so `is_empty r` is not equivalent to
`¬∃ x, contains r x`. -/
theorem is_empty_contains_counterexample :
    (RangeFromMaybeToInclusive.from_range_bounds
        (RBound.included 5) (RBound.included 3)).is_empty = true
      ∧ (RangeFromMaybeToInclusive.from_range_bounds
          (RBound.included 5) (RBound.included 3)).contains 5 = true := by
  decide

/-- C8 (amended): `from_range_bounds` normalization — unbounded start becomes
0, an excluded start `s` becomes `s + 1` *when `s + 1` is representable as
`u64`* (at `s = u64::MAX` the addition wraps to 0; see the counterexample),
an unbounded end stays unbounded, an included end `e` becomes `max e start`,
an excluded end `e` becomes `max (e - 1) start` with the subtraction
saturating at 0; in particular `from_range_bounds(5..=3)` is empty,
`from_range_bounds(5..)` contains 5, 100 and `u64::MAX`, and
`from_range_bounds(..10)` is `{start 0, end 9}`. -/
theorem from_range_bounds_normalization :
    (∀ eb : RBound,
        (RangeFromMaybeToInclusive.from_range_bounds RBound.unbounded eb).start = 0) ∧
      (∀ (s : Nat) (eb : RBound), s + 1 < 2 ^ 64 →
        (RangeFromMaybeToInclusive.from_range_bounds (RBound.excluded s) eb).start = s + 1) ∧
      (∀ sb : RBound,
        (RangeFromMaybeToInclusive.from_range_bounds sb RBound.unbounded).end? = none) ∧
      (∀ (sb : RBound) (e : Nat),
        (RangeFromMaybeToInclusive.from_range_bounds sb (RBound.included e)).end?
          = some (max e
              (RangeFromMaybeToInclusive.from_range_bounds sb (RBound.included e)).start)) ∧
      (∀ (sb : RBound) (e : Nat),
        (RangeFromMaybeToInclusive.from_range_bounds sb (RBound.excluded e)).end?
          = some (max (e - 1)
              (RangeFromMaybeToInclusive.from_range_bounds sb (RBound.excluded e)).start)) ∧
      (RangeFromMaybeToInclusive.from_range_bounds
          (RBound.included 5) (RBound.included 3)).is_empty = true ∧
      (RangeFromMaybeToInclusive.from_range_bounds
          (RBound.included 5) RBound.unbounded).contains 5 = true ∧
      (RangeFromMaybeToInclusive.from_range_bounds
          (RBound.included 5) RBound.unbounded).contains 100 = true ∧
      (RangeFromMaybeToInclusive.from_range_bounds
          (RBound.included 5) RBound.unbounded).contains (2 ^ 64 - 1) = true ∧
      (RangeFromMaybeToInclusive.from_range_bounds
          RBound.unbounded (RBound.excluded 10)).start = 0 ∧
      (RangeFromMaybeToInclusive.from_range_bounds
          RBound.unbounded (RBound.excluded 10)).end? = some 9 := by
  refine ⟨fun eb => rfl, fun s eb h => ?_, fun sb => rfl, fun sb e => rfl, fun sb e => rfl,
    by decide, by decide, by decide, by decide, by decide, by decide⟩
  show (s + 1) % 2 ^ 64 = s + 1
  exact Nat.mod_eq_of_lt h

/-- Witness for `from_range_bounds_normalization`: the excluded-start rule at
`s = 5`. -/
theorem from_range_bounds_normalization_witness :
    5 + 1 < 2 ^ 64 ∧
      (RangeFromMaybeToInclusive.from_range_bounds
          (RBound.excluded 5) RBound.unbounded).start = 5 + 1 :=
  ⟨by decide, from_range_bounds_normalization.2.1 5 RBound.unbounded (by decide)⟩

/-- Counterexample to C8 as stated: for the excluded start `s = u64::MAX`,
the code computes `start + 1` in u64 arithmetic, which wraps to 0 (and would
panic in a debug build) — the produced range starts at 0, and so contains
offsets below the excluded bound, instead of starting at the unrepresentable
`s + 1`. -/
theorem from_range_bounds_excluded_start_counterexample :
    (RangeFromMaybeToInclusive.from_range_bounds
        (RBound.excluded (2 ^ 64 - 1)) RBound.unbounded).start = 0 ∧
      (0 : Nat) ≠ 2 ^ 64 - 1 + 1 ∧
      (RangeFromMaybeToInclusive.from_range_bounds
          (RBound.excluded (2 ^ 64 - 1)) RBound.unbounded).contains 0 = true := by
  decide

theorem intoTxGo_length {R E : Type} (de : DecoderFn R E) (v : Nat) :
    ∀ (offs cur : List Nat), (intoTxGo de v offs cur).length = offs.length := by
  intro offs
  induction offs with
  | nil => intro cur; rfl
  | cons o offs ih =>
    intro cur
    simp only [intoTxGo, List.length_cons, ih]

theorem txCursorAfter_succ_shift {R E : Type} (de : DecoderFn R E) (v start : Nat)
    (cur : List Nat) :
    ∀ k, txCursorAfter de v start cur (k + 1)
      = txCursorAfter de v (start + 1) ((de v start cur).2) k := by
  intro k
  induction k with
  | zero => rfl
  | succ k ih =>
    show (de v (start + (k + 1)) (txCursorAfter de v start cur (k + 1))).2
        = (de v (start + 1 + k) (txCursorAfter de v (start + 1) ((de v start cur).2) k)).2
    rw [ih, show start + (k + 1) = start + 1 + k from by omega]

theorem intoTxGo_range_get {R E : Type} (de : DecoderFn R E) (v : Nat) :
    ∀ (n start : Nat) (cur : List Nat) (k : Nat), k < n →
      (intoTxGo de v (List.range' start n) cur)[k]?
        = some ((de v (start + k) (txCursorAfter de v start cur k)).1.map
            (fun txdata => ⟨start + k, txdata⟩)) := by
  intro n
  induction n with
  | zero => intro start cur k hk; omega
  | succ n ih =>
    intro start cur k hk
    rw [List.range'_succ]
    cases k with
    | zero =>
      simp only [intoTxGo, List.getElem?_cons_zero, txCursorAfter, Nat.add_zero]
    | succ k =>
      show (intoTxGo de v (start :: List.range' (start + 1) n) cur)[k + 1]? = _
      rw [show intoTxGo de v (start :: List.range' (start + 1) n) cur
          = ((de v start cur).1.map fun txdata => ⟨start, txdata⟩)
            :: intoTxGo de v (List.range' (start + 1) n) (de v start cur).2 from rfl]
      rw [List.getElem?_cons_succ]
      rw [show start + (k + 1) = start + 1 + k from by omega, txCursorAfter_succ_shift]
      exact ih (start + 1) (de v start cur).2 k (by omega)

/-- C7 (amended): for a commit with `n ≥ 1` *whose offset range does not
overflow `u64`* (`min_tx_offset + n < 2^64` — at `min_tx_offset = u64::MAX`
the Rust range end wraps and the iterator yields 0 items, see the
counterexample), `into_transactions` yields exactly `n` items; the `k`-th
item is produced by calling the decoder at offset `min_tx_offset + k` on the
single shared cursor positioned immediately after what the previous call
consumed (`txCursorAfter`); successful items carry offset
`min_tx_offset + k`, hence strictly ascending offsets covering
`[min_tx_offset, min_tx_offset + n)`. -/
theorem into_transactions_spec {R E : Type} (c : Commit) (version : Nat) (de : DecoderFn R E)
    (hn : 1 ≤ c.n) (hofs : c.min_tx_offset + c.n < 2 ^ 64) :
    (c.into_transactions version de).length = c.n ∧
      (∀ k, k < c.n →
        (c.into_transactions version de)[k]?
          = some ((de version (c.min_tx_offset + k)
              (txCursorAfter de version c.min_tx_offset c.records k)).1.map
                (fun txdata => ⟨c.min_tx_offset + k, txdata⟩))) ∧
      (∀ (k : Nat) (t : Transaction R),
        (c.into_transactions version de)[k]? = some (Except.ok t)
        → t.offset = c.min_tx_offset + k) ∧
      (∀ (k1 k2 : Nat) (t1 t2 : Transaction R), k1 < k2
        → (c.into_transactions version de)[k1]? = some (Except.ok t1)
        → (c.into_transactions version de)[k2]? = some (Except.ok t2)
        → t1.offset < t2.offset) := by
  have hcount : (c.min_tx_offset + c.n) % 2 ^ 64 - c.min_tx_offset = c.n := by
    rw [Nat.mod_eq_of_lt hofs]
    omega
  have hlen : (c.into_transactions version de).length = c.n := by
    unfold Commit.into_transactions
    rw [hcount, intoTxGo_length, List.length_range']
  have hget : ∀ k, k < c.n →
      (c.into_transactions version de)[k]?
        = some ((de version (c.min_tx_offset + k)
            (txCursorAfter de version c.min_tx_offset c.records k)).1.map
              (fun txdata => ⟨c.min_tx_offset + k, txdata⟩)) := by
    intro k hk
    unfold Commit.into_transactions
    rw [hcount]
    exact intoTxGo_range_get de version c.n c.min_tx_offset c.records k hk
  have hoff : ∀ (k : Nat) (t : Transaction R),
      (c.into_transactions version de)[k]? = some (Except.ok t)
      → t.offset = c.min_tx_offset + k := by
    intro k t ht
    have hk : k < c.n := by
      by_contra hk
      have hnone : (c.into_transactions version de)[k]? = none := by
        apply List.getElem?_eq_none
        rw [hlen]
        omega
      rw [hnone] at ht
      cases ht
    rw [hget k hk] at ht
    simp only [Option.some.injEq] at ht
    cases hres : (de version (c.min_tx_offset + k)
        (txCursorAfter de version c.min_tx_offset c.records k)).1 with
    | ok r =>
      rw [hres] at ht
      simp only [Except.map] at ht
      cases ht
      rfl
    | error e =>
      rw [hres] at ht
      simp only [Except.map] at ht
      cases ht
  refine ⟨hlen, hget, hoff, ?_⟩
  intro k1 k2 t1 t2 hlt h1 h2
  have e1 := hoff k1 t1 h1
  have e2 := hoff k2 t2 h2
  omega

deriving instance DecidableEq for Except

/-- The spec's S5 dummy decoder: consume exactly 4 bytes per record and
return them, big-endian, as the record value. -/
def dummyDecoder : DecoderFn Nat Unit := fun _ _ cur =>
  if 4 ≤ cur.length then
    ((cur.take 4).foldl (fun a b => 256 * a + b) 0 |> Except.ok, cur.drop 4)
  else (Except.error (), cur)

/-- Witness for `into_transactions_spec` at the spec's S5 scenario:
offsets `[7, 8, 9]` and values `[1, 2, 3]`. -/
theorem into_transactions_spec_witness :
    1 ≤ (3 : Nat) ∧ 7 + 3 < 2 ^ 64 ∧
      ((Commit.mk 7 3 [0, 0, 0, 1, 0, 0, 0, 2, 0, 0, 0, 3]).into_transactions
          0 dummyDecoder).length = 3 ∧
      (Commit.mk 7 3 [0, 0, 0, 1, 0, 0, 0, 2, 0, 0, 0, 3]).into_transactions 0 dummyDecoder
        = [Except.ok ⟨7, 1⟩, Except.ok ⟨8, 2⟩, Except.ok ⟨9, 3⟩] :=
  ⟨by decide, by decide,
    (into_transactions_spec _ 0 dummyDecoder (by decide) (by decide)).1, by decide⟩

/-- Counterexample to C7 as stated: for the commit
`{min_tx_offset: u64::MAX, n: 1, records: []}` — a representable Rust commit
with `n ≥ 1` — the range end `min_tx_offset + n as u64` wraps to 0 (and
would panic in a debug build), the offset range `u64::MAX..0` is empty, and
`into_transactions` yields 0 items instead of exactly `n = 1`. -/
theorem into_transactions_overflow_counterexample :
    1 ≤ (Commit.mk (2 ^ 64 - 1) 1 []).n ∧
      ((Commit.mk (2 ^ 64 - 1) 1 []).into_transactions 0 dummyDecoder).length = 0 := by
  decide

/-- C10: when the records buffer holds `2^32` bytes or more, `Commit::write`
still succeeds (`writeBytes` is total) but `records.len() as u32` truncates:
the `len` header field equals `records.len() % 2^32`, which no longer matches
the actual payload byte count, and round-tripping through `Commit::decode`
cannot return `Some C`. -/
theorem write_truncates_oversized_len (c : Commit)
    (hbig : 2 ^ 32 ≤ c.records.length) :
    leToNat ((c.writeBytes.drop 10).take 4) = c.records.length % 2 ^ 32 ∧
      c.records.length % 2 ^ 32 ≠ c.records.length ∧
      (Commit.decode c.writeBytes).1 ≠ DecodeResult.ok c := by
  have hlenfield : leToNat ((c.writeBytes.drop 10).take 4)
      = c.records.length % 2 ^ 32 := by
    have hsplit : c.writeBytes
        = (natToLe 8 c.min_tx_offset ++ natToLe 2 c.n)
          ++ (natToLe 4 (c.records.length % 2 ^ 32)
            ++ (c.records ++ natToLe 4 (crc32c (hdrBytes c ++ c.records)))) := by
      rw [writeBytes_eq]
      simp [hdrBytes, List.append_assoc]
    rw [hsplit, List.drop_left' (by simp), List.take_left' (by simp), leToNat_natToLe]
    have h1 : (256 : Nat) ^ 4 = 2 ^ 32 := by norm_num
    rw [h1]
    omega
  refine ⟨hlenfield, by omega, ?_⟩
  intro h
  obtain ⟨hd, hh, _, _, _, hreclen⟩ := decode_ok_shape h
  have hfields := header_decode_some_fields hh
  have hlen' : hd.len = c.records.length % 2 ^ 32 := by
    rw [hfields.2.2.1, hlenfield]
  omega

/-- Witness for `write_truncates_oversized_len` at
`C = {min_tx_offset: 0, n: 1, records: [0; 2^32]}`. -/
theorem write_truncates_oversized_len_witness :
    2 ^ 32 ≤ (Commit.mk 0 1 (List.replicate (2 ^ 32) 0)).records.length ∧
      (leToNat (((Commit.mk 0 1 (List.replicate (2 ^ 32) 0)).writeBytes.drop 10).take 4)
          = (Commit.mk 0 1 (List.replicate (2 ^ 32) 0)).records.length % 2 ^ 32 ∧
        (Commit.mk 0 1 (List.replicate (2 ^ 32) 0)).records.length % 2 ^ 32
            ≠ (Commit.mk 0 1 (List.replicate (2 ^ 32) 0)).records.length ∧
        (Commit.decode (Commit.mk 0 1 (List.replicate (2 ^ 32) 0)).writeBytes).1
            ≠ DecodeResult.ok (Commit.mk 0 1 (List.replicate (2 ^ 32) 0))) :=
  have hlen : 2 ^ 32 ≤ (Commit.mk 0 1 (List.replicate (2 ^ 32) 0)).records.length := by
    rw [show (Commit.mk 0 1 (List.replicate (2 ^ 32) 0)).records
        = List.replicate (2 ^ 32) 0 from rfl, List.length_replicate]
  ⟨hlen, write_truncates_oversized_len (Commit.mk 0 1 (List.replicate (2 ^ 32) 0)) hlen⟩

/-! ### Bit-flip helpers -/

theorem xor_two_pow_ne (x k : Nat) : Nat.xor x (2 ^ k) ≠ x := by
  show x ^^^ 2 ^ k ≠ x
  intro h
  have hb := congrArg (fun y => y.testBit k) h
  simp only [Nat.testBit_xor, Nat.testBit_two_pow_self, Bool.xor_true] at hb
  cases hx : x.testBit k <;> simp [hx] at hb

theorem getD_lt_256 {l : List Nat} (h : ∀ b ∈ l, b < 256) (i : Nat) : l.getD i 0 < 256 := by
  induction l generalizing i with
  | nil =>
    show (0 : Nat) < 256
    norm_num
  | cons a l ih =>
    cases i with
    | zero => simpa using h a (by simp)
    | succ i =>
      simp only [List.getD_cons_succ]
      exact ih (fun b hb => h b (by simp [hb])) i

theorem set_bytes_lt_256 {l : List Nat} {i v : Nat} (hl : ∀ b ∈ l, b < 256)
    (hv : v < 256) : ∀ b ∈ l.set i v, b < 256 := by
  intro b hb
  rcases List.mem_or_eq_of_mem_set hb with h | h
  · exact hl b h
  · omega

theorem getD_set_self {l : List Nat} {i v : Nat} (hi : i < l.length) :
    (l.set i v).getD i 0 = v := by
  rw [List.getD_eq_getElem?_getD, List.getElem?_set_self hi]
  rfl

theorem set_ne_of_ne {l : List Nat} {i v : Nat} (hi : i < l.length)
    (hne : v ≠ l.getD i 0) : l.set i v ≠ l := by
  intro h
  have h2 : (l.set i v).getD i 0 = l.getD i 0 := by rw [h]
  rw [getD_set_self hi] at h2
  exact hne h2

theorem writeBytes_bytes_lt (c : Commit) (hrb : ∀ b ∈ c.records, b < 256) :
    ∀ b ∈ c.writeBytes, b < 256 := by
  rw [writeBytes_eq]
  intro b hb
  rcases List.mem_append.mp hb with hb | hb
  · rcases List.mem_append.mp hb with hb | hb
    · exact hdrBytes_bytes_lt c b hb
    · exact hrb b hb
  · exact mem_natToLe_lt hb

theorem hdrBytes_take8 (c : Commit) :
    (hdrBytes c).take 8 = natToLe 8 c.min_tx_offset := by
  rw [hdrBytes, List.append_assoc]
  exact List.take_left' (by simp)

theorem hdrBytes_drop8 (c : Commit) :
    (hdrBytes c).drop 8 = natToLe 2 c.n ++ natToLe 4 (c.records.length % 2 ^ 32) := by
  rw [hdrBytes, List.append_assoc]
  exact List.drop_left' (by simp)

theorem hdrBytes_drop10 (c : Commit) :
    (hdrBytes c).drop 10 = natToLe 4 (c.records.length % 2 ^ 32) := by
  rw [hdrBytes]
  exact List.drop_left' (by simp)

/-- Flipping one header byte of an encoded commit and decoding can never
return the original commit: the corrupted field (offset, count or length)
would have to round-trip to its original value, which little-endian byte
injectivity forbids. -/
theorem decode_set_header_ne (c : Commit) (hv : c.valid) (i v : Nat)
    (hi : i < 14) (hvlt : v < 256) (hne : v ≠ c.writeBytes.getD i 0) :
    (Commit.decode (c.writeBytes.set i v)).1 ≠ DecodeResult.ok c := by
  obtain ⟨⟨ho, hn16, hrb⟩, hn1, hlen32⟩ := hv
  have hKdef : c.writeBytes = hdrBytes c
      ++ (c.records ++ natToLe 4 (crc32c (hdrBytes c ++ c.records))) := by
    rw [writeBytes_eq, List.append_assoc]
  have htail : c.writeBytes.set i v
      = (hdrBytes c).set i v
        ++ (c.records ++ natToLe 4 (crc32c (hdrBytes c ++ c.records))) := by
    rw [hKdef, List.set_append_left _ _ (by rw [hdrBytes_length]; omega)]
  have hgetD : c.writeBytes.getD i 0 = (hdrBytes c).getD i 0 := by
    rw [hKdef]
    exact List.getD_append _ _ _ _ (by rw [hdrBytes_length]; omega)
  have hsetlen : ((hdrBytes c).set i v).length = 14 := by
    simp [hdrBytes_length]
  have ht8 : (c.writeBytes.set i v).take 8 = ((hdrBytes c).set i v).take 8 := by
    rw [htail]
    exact List.take_append_of_le_length (by omega)
  have ht2 : ((c.writeBytes.set i v).drop 8).take 2
      = (((hdrBytes c).set i v).drop 8).take 2 := by
    rw [htail, List.drop_append_of_le_length (by omega)]
    exact List.take_append_of_le_length (by simp [hsetlen])
  have ht4 : ((c.writeBytes.set i v).drop 10).take 4
      = (((hdrBytes c).set i v).drop 10).take 4 := by
    rw [htail, List.drop_append_of_le_length (by omega)]
    exact List.take_append_of_le_length (by simp [hsetlen])
  intro heq
  obtain ⟨hd, hh, hmin, hnn, hrec, hreclen⟩ := decode_ok_shape heq
  obtain ⟨hdm, hdn, hdl, _⟩ := header_decode_some_fields hh
  rcases lt_or_ge i 8 with hi8 | hi8
  · -- the flip lands in the min_tx_offset field
    have e1 : ((hdrBytes c).set i v).take 8 = (natToLe 8 c.min_tx_offset).set i v := by
      rw [List.set_take, hdrBytes_take8]
    have hgA : (hdrBytes c).getD i 0 = (natToLe 8 c.min_tx_offset).getD i 0 := by
      rw [hdrBytes, List.append_assoc]
      exact List.getD_append _ _ _ _ (by simp; omega)
    have hneA : v ≠ (natToLe 8 c.min_tx_offset).getD i 0 := by
      rw [← hgA, ← hgetD]
      exact hne
    have hAne : (natToLe 8 c.min_tx_offset).set i v ≠ natToLe 8 c.min_tx_offset :=
      set_ne_of_ne (by simp; omega) hneA
    have h1 : leToNat ((natToLe 8 c.min_tx_offset).set i v)
        ≠ leToNat (natToLe 8 c.min_tx_offset) :=
      leToNat_ne_of_ne (by simp) (set_bytes_lt_256 (fun b hb => mem_natToLe_lt hb) hvlt)
        (fun b hb => mem_natToLe_lt hb) hAne
    rw [leToNat_natToLe (by norm_num; omega)] at h1
    have hval : hd.min_tx_offset = leToNat ((natToLe 8 c.min_tx_offset).set i v) := by
      rw [hdm, ht8, e1]
    exact h1 ((hmin.trans hval).symm)
  · rcases lt_or_ge i 10 with hi10 | hi10
    · -- the flip lands in the n field
      have e2 : (((hdrBytes c).set i v).drop 8).take 2 = (natToLe 2 c.n).set (i - 8) v := by
        rw [List.drop_set, if_neg (by omega), hdrBytes_drop8,
          List.set_append_left _ _ (by simp; omega)]
        exact List.take_left' (by simp)
      have hgB : (hdrBytes c).getD i 0 = (natToLe 2 c.n).getD (i - 8) 0 := by
        rw [hdrBytes, List.append_assoc,
          List.getD_append_right _ _ _ _ (by simp; omega)]
        rw [show i - (natToLe 8 c.min_tx_offset).length = i - 8 by simp]
        exact List.getD_append _ _ _ _ (by simp; omega)
      have hneB : v ≠ (natToLe 2 c.n).getD (i - 8) 0 := by
        rw [← hgB, ← hgetD]
        exact hne
      have hBne : (natToLe 2 c.n).set (i - 8) v ≠ natToLe 2 c.n :=
        set_ne_of_ne (by simp; omega) hneB
      have h1 : leToNat ((natToLe 2 c.n).set (i - 8) v)
          ≠ leToNat (natToLe 2 c.n) :=
        leToNat_ne_of_ne (by simp) (set_bytes_lt_256 (fun b hb => mem_natToLe_lt hb) hvlt)
          (fun b hb => mem_natToLe_lt hb) hBne
      rw [leToNat_natToLe (by norm_num; omega)] at h1
      have hval : hd.n = leToNat ((natToLe 2 c.n).set (i - 8) v) := by
        rw [hdn, ht2, e2]
      exact h1 ((hnn.trans hval).symm)
    · -- the flip lands in the len field
      have e3 : (((hdrBytes c).set i v).drop 10).take 4
          = (natToLe 4 (c.records.length % 2 ^ 32)).set (i - 10) v := by
        rw [List.drop_set, if_neg (by omega), hdrBytes_drop10]
        exact List.take_of_length_le (by simp)
      have hgC : (hdrBytes c).getD i 0
          = (natToLe 4 (c.records.length % 2 ^ 32)).getD (i - 10) 0 := by
        rw [hdrBytes,
          List.getD_append_right _ _ _ _ (by simp; omega)]
        rw [show i - (natToLe 8 c.min_tx_offset ++ natToLe 2 c.n).length = i - 10 by simp]
      have hneC : v ≠ (natToLe 4 (c.records.length % 2 ^ 32)).getD (i - 10) 0 := by
        rw [← hgC, ← hgetD]
        exact hne
      have hCne : (natToLe 4 (c.records.length % 2 ^ 32)).set (i - 10) v
          ≠ natToLe 4 (c.records.length % 2 ^ 32) :=
        set_ne_of_ne (by simp; omega) hneC
      have h1 : leToNat ((natToLe 4 (c.records.length % 2 ^ 32)).set (i - 10) v)
          ≠ leToNat (natToLe 4 (c.records.length % 2 ^ 32)) :=
        leToNat_ne_of_ne (by simp) (set_bytes_lt_256 (fun b hb => mem_natToLe_lt hb) hvlt)
          (fun b hb => mem_natToLe_lt hb) hCne
      rw [leToNat_natToLe (by norm_num; omega)] at h1
      have hval : hd.len
          = leToNat ((natToLe 4 (c.records.length % 2 ^ 32)).set (i - 10) v) := by
        rw [hdl, ht4, e3]
      have hmod : c.records.length % 2 ^ 32 = c.records.length := Nat.mod_eq_of_lt hlen32
      have hfin : leToNat ((natToLe 4 (c.records.length % 2 ^ 32)).set (i - 10) v)
          = c.records.length % 2 ^ 32 := by
        rw [← hval, ← hreclen, hmod]
      exact h1 hfin

/-- Flipping one payload byte and decoding can never return the original
commit: the header still parses, so any successful decode carries the
modified records buffer. -/
theorem decode_set_payload_ne (c : Commit) (hv : c.valid) (i v : Nat)
    (hi1 : 14 ≤ i) (hi2 : i < 14 + c.records.length) (hvlt : v < 256)
    (hne : v ≠ c.writeBytes.getD i 0) :
    (Commit.decode (c.writeBytes.set i v)).1 ≠ DecodeResult.ok c := by
  obtain ⟨⟨ho, hn16, hrb⟩, hn1, hlen32⟩ := hv
  have hKdef : c.writeBytes = hdrBytes c
      ++ (c.records ++ natToLe 4 (crc32c (hdrBytes c ++ c.records))) := by
    rw [writeBytes_eq, List.append_assoc]
  have hb : c.writeBytes.set i v
      = hdrBytes c ++ (c.records.set (i - 14) v
          ++ natToLe 4 (crc32c (hdrBytes c ++ c.records))) := by
    rw [hKdef, List.set_append_right _ _ (by rw [hdrBytes_length]; omega),
      hdrBytes_length, List.set_append_left _ _ (by omega)]
  have hh : Header.decode (c.writeBytes.set i v)
      = some ⟨c.min_tx_offset, c.n, c.records.length⟩ := by
    rw [hb]
    have h0 := header_decode_hdrBytes_append c
      (c.records.set (i - 14) v ++ natToLe 4 (crc32c (hdrBytes c ++ c.records))) ho hn16 hn1
    rw [Nat.mod_eq_of_lt hlen32] at h0
    exact h0
  have hblen : 14 + (⟨c.min_tx_offset, c.n, c.records.length⟩ : Header).len + 4
      ≤ (c.writeBytes.set i v).length := by
    show 14 + c.records.length + 4 ≤ _
    rw [List.length_set, writeBytes_length]
  have hdec := decode_eq_of_header_some hh hblen
  have hr' : ((c.writeBytes.set i v).drop 14).take c.records.length
      = c.records.set (i - 14) v := by
    rw [hb, List.drop_left' (hdrBytes_length c)]
    exact List.take_left' (by simp)
  have hgR : c.writeBytes.getD i 0 = c.records.getD (i - 14) 0 := by
    rw [hKdef, List.getD_append_right _ _ _ _ (by rw [hdrBytes_length]; omega),
      hdrBytes_length]
    exact List.getD_append _ _ _ _ (by omega)
  have hrne : c.records.set (i - 14) v ≠ c.records :=
    set_ne_of_ne (by omega) (by rw [← hgR]; exact hne)
  intro heq
  rw [hdec] at heq
  split at heq
  · simp only [DecodeResult.ok.injEq] at heq
    have hrecs := congrArg Commit.records heq
    simp only at hrecs
    rw [hr'] at hrecs
    exact hrne hrecs
  · cases heq

/-- Flipping one byte of the trailing CRC word and decoding always fails with
a checksum mismatch: the recomputed CRC equals the original CRC word, which
the flip has changed. -/
theorem decode_set_crc_ne (c : Commit) (hv : c.valid) (i v : Nat)
    (hi1 : 14 + c.records.length ≤ i) (hi2 : i < 14 + c.records.length + 4)
    (hvlt : v < 256) (hne : v ≠ c.writeBytes.getD i 0) :
    (Commit.decode (c.writeBytes.set i v)).1 ≠ DecodeResult.ok c := by
  obtain ⟨⟨ho, hn16, hrb⟩, hn1, hlen32⟩ := hv
  have hblen14 : (hdrBytes c ++ c.records).length = 14 + c.records.length := by
    simp [hdrBytes_length]
  have hb : c.writeBytes.set i v
      = (hdrBytes c ++ c.records)
        ++ (natToLe 4 (crc32c (hdrBytes c ++ c.records))).set
            (i - (14 + c.records.length)) v := by
    rw [writeBytes_eq, List.set_append_right _ _ (by rw [hblen14]; omega), hblen14]
  have hh : Header.decode (c.writeBytes.set i v)
      = some ⟨c.min_tx_offset, c.n, c.records.length⟩ := by
    rw [hb, List.append_assoc]
    have h0 := header_decode_hdrBytes_append c
      (c.records ++ (natToLe 4 (crc32c (hdrBytes c ++ c.records))).set
        (i - (14 + c.records.length)) v) ho hn16 hn1
    rw [Nat.mod_eq_of_lt hlen32] at h0
    exact h0
  have hblen : 14 + (⟨c.min_tx_offset, c.n, c.records.length⟩ : Header).len + 4
      ≤ (c.writeBytes.set i v).length := by
    show 14 + c.records.length + 4 ≤ _
    rw [List.length_set, writeBytes_length]
  have hdec := decode_eq_of_header_some hh hblen
  have ht14 : (c.writeBytes.set i v).take 14 = hdrBytes c := by
    rw [hb, List.append_assoc]
    exact List.take_left' (hdrBytes_length c)
  have hr' : ((c.writeBytes.set i v).drop 14).take c.records.length = c.records := by
    rw [hb, List.append_assoc, List.drop_left' (hdrBytes_length c)]
    exact List.take_left' rfl
  have hK' : ((c.writeBytes.set i v).drop (14 + c.records.length)).take 4
      = (natToLe 4 (crc32c (hdrBytes c ++ c.records))).set
          (i - (14 + c.records.length)) v := by
    rw [hb, List.drop_left' hblen14]
    exact List.take_of_length_le (by simp)
  have hgK : c.writeBytes.getD i 0
      = (natToLe 4 (crc32c (hdrBytes c ++ c.records))).getD
          (i - (14 + c.records.length)) 0 := by
    rw [writeBytes_eq, List.getD_append_right _ _ _ _ (by rw [hblen14]; omega), hblen14]
  have hKne : (natToLe 4 (crc32c (hdrBytes c ++ c.records))).set
      (i - (14 + c.records.length)) v
      ≠ natToLe 4 (crc32c (hdrBytes c ++ c.records)) :=
    set_ne_of_ne (by simp; omega) (by rw [← hgK]; exact hne)
  have hbytes : ∀ b ∈ hdrBytes c ++ c.records, b < 256 := by
    intro b hb'
    rcases List.mem_append.mp hb' with h | h
    · exact hdrBytes_bytes_lt c b h
    · exact hrb b h
  have hcrcval : leToNat (natToLe 4 (crc32c (hdrBytes c ++ c.records)))
      = crc32c (hdrBytes c ++ c.records) := by
    apply leToNat_natToLe
    have h1 : (256 : Nat) ^ 4 = 2 ^ 32 := by norm_num
    rw [h1]
    exact crc32c_lt hbytes
  have hcrcne : leToNat ((natToLe 4 (crc32c (hdrBytes c ++ c.records))).set
      (i - (14 + c.records.length)) v) ≠ crc32c (hdrBytes c ++ c.records) := by
    have h2 := leToNat_ne_of_ne (by simp)
      (set_bytes_lt_256 (fun b hb' => mem_natToLe_lt hb') hvlt)
      (fun b hb' => mem_natToLe_lt hb') hKne
    rw [hcrcval] at h2
    exact h2
  have hcond : ¬(crc32c ((c.writeBytes.set i v).take 14
        ++ ((c.writeBytes.set i v).drop 14).take
            (⟨c.min_tx_offset, c.n, c.records.length⟩ : Header).len)
      = leToNat (((c.writeBytes.set i v).drop
          (14 + (⟨c.min_tx_offset, c.n, c.records.length⟩ : Header).len)).take 4)) := by
    rw [show (⟨c.min_tx_offset, c.n, c.records.length⟩ : Header).len
        = c.records.length from rfl, ht14, hr', hK']
    intro hcontra
    exact hcrcne (hcontra.symm)
  intro heq
  rw [hdec, if_neg hcond] at heq
  cases heq

/-- C2 (amended): for every valid commit `C` and every single-bit flip of the
encoded frame, `Commit::decode` on the flipped buffer never returns
`Some C` — the outcome is a checksum mismatch, a truncation error, `None`
(when the flip zeroes a near-zero header), or `Some` of a commit *different*
from `C`.  (The original claim — that the outcome is always an error — fails:
see the counterexample, where a flip in the `len` field makes `decode` return
`Some` of a different commit with a valid checksum.) -/
theorem bitflip_never_decodes_to_original (c : Commit) (hv : c.valid) (i j : Nat)
    (hi : i < c.writeBytes.length) (hj : j < 8) :
    (Commit.decode (flipByte c.writeBytes i j)).1 ≠ DecodeResult.ok c := by
  have hwb : ∀ b ∈ c.writeBytes, b < 256 := writeBytes_bytes_lt c hv.1.2.2
  have hwlen := writeBytes_length c
  have hflip : flipByte c.writeBytes i j
      = c.writeBytes.set i (c.writeBytes.getD i 0 ^^^ 2 ^ j) := rfl
  have hx : c.writeBytes.getD i 0 < 2 ^ 8 := by
    have := getD_lt_256 hwb i
    omega
  have hy : (2 : Nat) ^ j < 2 ^ 8 := by
    have h7 : (2 : Nat) ^ j ≤ 2 ^ 7 := Nat.pow_le_pow_right (by norm_num) (by omega)
    omega
  have hvlt : c.writeBytes.getD i 0 ^^^ 2 ^ j < 256 := by
    have := Nat.xor_lt_two_pow hx hy
    omega
  have hvne : c.writeBytes.getD i 0 ^^^ 2 ^ j ≠ c.writeBytes.getD i 0 :=
    xor_two_pow_ne _ _
  rw [hflip]
  rcases lt_or_ge i 14 with hA | hA
  · exact decode_set_header_ne c hv i _ hA hvlt hvne
  · rcases lt_or_ge i (14 + c.records.length) with hB | hC
    · exact decode_set_payload_ne c hv i _ hA hB hvlt hvne
    · exact decode_set_crc_ne c hv i _ hC (by omega) hvlt hvne

/-- Witness for `bitflip_never_decodes_to_original`: flip bit 0 of byte 0 of
the encoding of `{min_tx_offset: 0, n: 1, records: [7]}`. -/
theorem bitflip_never_decodes_to_original_witness :
    (Commit.mk 0 1 [7]).valid ∧ 0 < (Commit.mk 0 1 [7]).writeBytes.length ∧ 0 < 8 ∧
      (Commit.decode (flipByte (Commit.mk 0 1 [7]).writeBytes 0 0)).1
        ≠ DecodeResult.ok (Commit.mk 0 1 [7]) :=
  ⟨by decide, by decide, by decide,
    bitflip_never_decodes_to_original (Commit.mk 0 1 [7]) (by decide) 0 0
      (by decide) (by decide)⟩

/-- Counterexample to C2 as stated: for the valid commit
`C = {min_tx_offset: 0, n: 1, records: [0, v0, v1, v2, v3]}` — where
`v0..v3` are chosen as the little-endian CRC-32C of the 15 bytes that a
shortened frame would cover — flipping bit 2 of byte 10 (the low byte of the
`len` field, `5 ⊕ 4 = 1`) makes `Commit::decode` succeed with checksum intact
and return `Some {min_tx_offset: 0, n: 1, records: [0]}`, a commit different
from `C`: neither a `ChecksumMismatch` nor a transport error. -/
theorem bitflip_forgery_counterexample :
    (Commit.mk 0 1
        (0 :: natToLe 4 (crc32c (natToLe 8 0 ++ natToLe 2 1 ++ natToLe 4 1 ++ [0])))).valid ∧
      10 < (Commit.mk 0 1
        (0 :: natToLe 4 (crc32c (natToLe 8 0 ++ natToLe 2 1
          ++ natToLe 4 1 ++ [0])))).writeBytes.length ∧
      2 < 8 ∧
      (Commit.decode (flipByte (Commit.mk 0 1
          (0 :: natToLe 4 (crc32c (natToLe 8 0 ++ natToLe 2 1
            ++ natToLe 4 1 ++ [0])))).writeBytes 10 2)).1
        = DecodeResult.ok (Commit.mk 0 1 [0]) ∧
      Commit.mk 0 1 [0] ≠ Commit.mk 0 1
        (0 :: natToLe 4 (crc32c (natToLe 8 0 ++ natToLe 2 1 ++ natToLe 4 1 ++ [0]))) := by
  decide

end Commitlog
